import Mathlib

/-!
Shallow embedding of the rsrl online update engine: the QLambda, GreedyGQ,
LSTDLambda and ActorCritic update rules, the eligibility-trace and
decaying-parameter primitives they rely on, and the Boltzmann /
TruncatedBoltzmann policy layer.  Machine floats are modelled as exact
rationals for the algorithm layer and as real numbers where the source calls
the exponential function.  Stateful Rust methods become pure state-passing
functions; the per-policy random generator becomes an explicit uniform draw
argument.
-/

namespace RL

/-! ## List arithmetic helpers (dense vector/matrix operations) -/

/-- Elementwise sum of two dense vectors. -/
def addL (x y : List ℚ) : List ℚ := List.zipWith (· + ·) x y

/-- Elementwise difference of two dense vectors. -/
def subL (x y : List ℚ) : List ℚ := List.zipWith (· - ·) x y

/-- Scalar multiple of a dense vector. -/
def smulL (c : ℚ) (x : List ℚ) : List ℚ := x.map (fun v => c * v)

/-- Dot product of two dense vectors. -/
def dotL (x y : List ℚ) : ℚ := (List.zipWith (· * ·) x y).sum

/-- Matrix sum, rows represented as lists. -/
def matAdd (x y : List (List ℚ)) : List (List ℚ) := List.zipWith addL x y

/-- Outer product of a column vector `z` and a row vector `pd`. -/
def outer (z pd : List ℚ) : List (List ℚ) := z.map (fun zi => pd.map (fun pj => zi * pj))

/-- Matrix–vector product, rows represented as lists. -/
def matVec (m : List (List ℚ)) (v : List ℚ) : List ℚ := m.map (fun row => dotL row v)

/-- Replace the entry at a given index by applying `f`; out-of-range indices
leave the list unchanged (embeds in-place indexed mutation). -/
def listModify {α : Type} (f : α → α) : ℕ → List α → List α
  | _, [] => []
  | 0, a :: l => f a :: l
  | n + 1, a :: l => a :: listModify f n l

/-- Index of the first element satisfying `f`, as Rust's
`Iterator::position`. -/
def listPos {α : Type} (f : α → Prop) [DecidablePred f] : List α → Option ℕ
  | [] => none
  | a :: l => if f a then some 0 else (listPos f l).map (· + 1)

/-- Running left-to-right partial sums starting from `acc`, as Rust's
`Iterator::scan` with addition. -/
def scanSums {α : Type} [Add α] (acc : α) : List α → List α
  | [] => []
  | p :: ps => (acc + p) :: scanSums (acc + p) ps

/-- Maximum element of a list of rationals (0 for the empty list). -/
def listMax : List ℚ → ℚ
  | [] => 0
  | [a] => a
  | a :: l => max a (listMax l)

/-! ## Core primitives

`Parameter` and `Trace` live in the crate's `core` module, which is not part
of the provided sources; they are reconstructed from the specification. -/

/-- Modelled from the spec: `Parameter` (crate `core`, not under `src/`) is a
scalar with a decay schedule, mutated only via `step()`; the schedule
(constant, linearly-decaying, exponentially-decaying, …) is abstracted as the
map taking the current value to the next one. -/
structure Parameter where
  value : ℚ
  schedule : ℚ → ℚ

/-- Advance the parameter one step along its schedule. -/
def Parameter.step (p : Parameter) : Parameter := ⟨p.schedule p.value, p.schedule⟩

/-- Closed-form value of the parameter after `n` steps of its schedule. -/
def Parameter.atStep (p : Parameter) (n : ℕ) : ℚ := p.schedule^[n] p.value

/-- Modelled from the spec: `Trace` (crate `core`, not under `src/`) is an
eligibility-trace accumulator over a feature vector together with its decay
rate parameter `lambda` (only its current value is ever read here). -/
structure Trace where
  lambda : ℚ
  accumulator : List ℚ

/-- Scale the accumulator in place; rate 0 is a hard reset. -/
def Trace.decay (tr : Trace) (rate : ℚ) : Trace :=
  { tr with accumulator := tr.accumulator.map (fun v => rate * v) }

/-- Accumulate a feature vector into the trace (accumulating-trace
semantics). -/
def Trace.update (tr : Trace) (phi : List ℚ) : Trace :=
  { tr with accumulator := addL tr.accumulator phi }

/-- Contents of the trace, as `Trace::get`. -/
def Trace.get (tr : Trace) : List ℚ := tr.accumulator

/-- One environment transition, as `domains::Transition`; `frm` embeds the
source fields `from` and `to` (reserved words in Lean). -/
structure Transition (S : Type) where
  frm : S
  to' : S
  action : ℕ
  reward : ℚ
  terminated : Bool

/-! ## Linear function approximation backend

The spec declares the backend external (§6); projections are modelled as
already-dense feature vectors, so `expanded(dim)` is the identity. -/

/-- Modelled from the spec: a multi-output linear function approximator
(`fa::MultiLFA`, external backend) with its projector; `weights` holds one
weight vector per action. -/
structure MultiLFA (S : Type) where
  project : S → List ℚ
  weights : List (List ℚ)

/-- Evaluate every action's linear estimate on a projected feature vector. -/
def MultiLFA.evaluate_phi {S : Type} (fa : MultiLFA S) (phi : List ℚ) : List ℚ :=
  fa.weights.map (fun w => dotL w phi)

/-- Evaluate a single action's linear estimate on a projected feature
vector. -/
def MultiLFA.evaluate_action_phi {S : Type} (fa : MultiLFA S) (phi : List ℚ) (a : ℕ) : ℚ :=
  dotL (fa.weights.getD a []) phi

/-- Apply an error-scaled feature vector to the weight column of one
action. -/
def MultiLFA.update_action_phi {S : Type} (fa : MultiLFA S) (phi : List ℚ) (a : ℕ)
    (err : ℚ) : MultiLFA S :=
  { fa with weights := listModify (fun w => addL w (smulL err phi)) a fa.weights }

/-- Modelled from the spec: a scalar-output linear function approximator
(`fa::SimpleLFA`, external backend) with its projector. -/
structure SimpleLFA (S : Type) where
  project : S → List ℚ
  weights : List ℚ

/-- Evaluate the linear estimate on a projected feature vector. -/
def SimpleLFA.evaluate_phi {S : Type} (fa : SimpleLFA S) (phi : List ℚ) : ℚ :=
  dotL fa.weights phi

/-- Apply an error-scaled feature vector to the weights. -/
def SimpleLFA.update_phi {S : Type} (fa : SimpleLFA S) (errv : List ℚ) (step : ℚ) :
    SimpleLFA S :=
  { fa with weights := addL fa.weights (smulL step errv) }

/-- Modelled from the spec: the `Greedy` target policy (module
`policies::fixed`, not under `src/`) selects the action of maximal estimated
value; ties resolve to the first maximal index. -/
def greedy (qs : List ℚ) : ℕ :=
  (listPos (fun q => listMax qs ≤ q) qs).getD 0

/-! ## QLambda (`src/control/td/q_lambda.rs`)

The mutable fields read or written by `handle_sample` / `handle_terminal`.
The behavior policy receives only a stateless terminal notification in the
source and is omitted from the state; the greedy target shares `fa_theta`
and is embedded as `greedy` over its evaluations. -/

structure QLambdaState (S : Type) where
  trace : Trace
  fa_theta : MultiLFA S
  alpha : Parameter
  gamma : Parameter

/-- Embeds `QLambda::handle_sample`: compute the Watkins TD error, cut or
decay the trace depending on the greediness of the taken action, accumulate
the current features, and update `theta` at the taken action. -/
def QLambda.handle_sample {S : Type} (st : QLambdaState S) (t : Transition S) :
    QLambdaState S :=
  let phi_s := st.fa_theta.project t.frm
  let qs := st.fa_theta.evaluate_phi phi_s
  let nqs := st.fa_theta.evaluate_phi (st.fa_theta.project t.to')
  let td_error := t.reward + st.gamma.value * nqs.getD (greedy nqs) 0 - qs.getD t.action 0
  let tr1 :=
    if t.action = greedy qs then
      st.trace.decay (st.trace.lambda * st.gamma.value)
    else
      st.trace.decay 0
  let tr2 := tr1.update phi_s
  { st with
    trace := tr2
    fa_theta := st.fa_theta.update_action_phi tr2.get t.action (td_error * st.alpha.value) }

/-- Embeds `QLambda::handle_terminal`: step `alpha` and `gamma`, hard-reset
the trace (the propagation to the stateless policy views is a no-op here). -/
def QLambda.handle_terminal {S : Type} (st : QLambdaState S) (_t : Transition S) :
    QLambdaState S :=
  { st with
    alpha := st.alpha.step
    gamma := st.gamma.step
    trace := st.trace.decay 0 }

/-! ## GreedyGQ (`src/control/gtd/greedy_gq.rs`)

Both estimators are projected through `fa_w`'s projector, as in the source;
the behavior policy's sampling is abstracted as the function `policy`. -/

structure GreedyGQState (S : Type) where
  fa_theta : MultiLFA S
  fa_w : SimpleLFA S
  policy : S → ℕ
  alpha : Parameter
  beta : Parameter
  gamma : Parameter

/-- Embeds `GreedyGQ::handle_sample`: gradient-TD update of `theta` (at the
taken action, step size `alpha`) and of `w` (step size `alpha * beta`), with
the bootstrap action drawn from the behavior policy at the next state. -/
def GreedyGQ.handle_sample {S : Type} (st : GreedyGQState S) (t : Transition S) :
    GreedyGQState S :=
  let phi_s := st.fa_w.project t.frm
  let phi_ns := st.fa_w.project t.to'
  let na := st.policy t.to'
  let td_estimate := st.fa_w.evaluate_phi phi_s
  let td_error := t.reward + st.gamma.value * st.fa_theta.evaluate_action_phi phi_ns na
    - st.fa_theta.evaluate_action_phi phi_s t.action
  let update_q := subL (smulL td_error phi_s) (smulL (st.gamma.value * td_estimate) phi_ns)
  let update_v := smulL (td_error - td_estimate) phi_s
  { st with
    fa_w := st.fa_w.update_phi update_v (st.alpha.value * st.beta.value)
    fa_theta := st.fa_theta.update_action_phi update_q t.action st.alpha.value }

/-- Embeds `GreedyGQ::handle_terminal`: step `alpha`, `beta` and `gamma` (the
propagation to the stateless policy views is a no-op here). -/
def GreedyGQ.handle_terminal {S : Type} (st : GreedyGQState S) (_t : Transition S) :
    GreedyGQState S :=
  { st with
    alpha := st.alpha.step
    beta := st.beta.step
    gamma := st.gamma.step }

/-! ## LSTDLambda (`src/prediction/lstd/lstd_lambda.rs`)

The external linear solvers (`ndarray_linalg`'s direct solve and the SVD
pseudo-inverse) are abstracted as fallible function arguments. -/

structure LSTDState (S : Type) where
  fa_theta : SimpleLFA S
  gamma : Parameter
  trace : Trace
  a : List (List ℚ)
  b : List ℚ

/-- Embeds `LSTDLambda::update_trace`: decay at `lambda * gamma`, accumulate
the current feature vector, return the contents. -/
def LSTDLambda.update_trace {S : Type} (st : LSTDState S) (phi : List ℚ) : Trace :=
  (st.trace.decay (st.trace.lambda * st.gamma.value)).update phi

/-- Embeds the per-transition body of `LSTDLambda::handle_batch`. -/
def LSTDLambda.step {S : Type} (st : LSTDState S) (t : Transition S) : LSTDState S :=
  let phi_s := st.fa_theta.project t.frm
  let tr1 := LSTDLambda.update_trace st phi_s
  let z := tr1.get
  let b1 := addL st.b (smulL t.reward z)
  let tr2 := if t.terminated then tr1.decay 0 else tr1
  let pd :=
    if t.terminated then phi_s
    else subL phi_s (smulL st.gamma.value (st.fa_theta.project t.to'))
  { st with
    trace := tr2
    b := b1
    a := matAdd st.a (outer z pd) }

/-- Embeds `LSTDLambda::solve`: attempt the direct solve of `A·theta = b`,
fall back to the pseudo-inverse, and on success overwrite the estimator's
weights; on double failure return the state unchanged. -/
def LSTDLambda.solve {S : Type} (direct : List (List ℚ) → List ℚ → Option (List ℚ))
    (pinv : List (List ℚ) → Option (List (List ℚ))) (st : LSTDState S) : LSTDState S :=
  match direct st.a st.b with
  | some theta => { st with fa_theta := { st.fa_theta with weights := theta } }
  | none =>
    match pinv st.a with
    | some ainv => { st with fa_theta := { st.fa_theta with weights := matVec ainv st.b } }
    | none => st

/-- Embeds `LSTDLambda::handle_batch`: fold the per-transition update over
the batch in submission order, then solve. -/
def LSTDLambda.handle_batch {S : Type} (direct : List (List ℚ) → List ℚ → Option (List ℚ))
    (pinv : List (List ℚ) → Option (List (List ℚ))) (st : LSTDState S)
    (ts : List (Transition S)) : LSTDState S :=
  LSTDLambda.solve direct pinv (ts.foldl LSTDLambda.step st)

/-! ## ActorCritic (`src/agents/actor_critic.rs`)

The actor and critic backends are abstract `Function`/`Parameterised`
collaborators; their evaluate/update capabilities become function fields. -/

structure ActorCritic (S A C : Type) where
  actor : A
  critic : C
  actorEval : A → S → List ℚ
  actorUpdate : A → S → List ℚ → A
  actorNOutputs : A → ℕ
  criticEval : C → S → ℚ
  criticUpdate : C → S → ℚ → C
  policy : List ℚ → ℕ
  alpha : ℚ
  beta : ℚ
  gamma : ℚ

/-- Embeds `ActorCritic::handle`: TD error from the scalar critic, sparse
actor error vector at the taken action, unconditional updates of both
estimators, and the policy's sample over the updated actor's evaluation at
the next state as the returned action. -/
def ActorCritic.handle {S A C : Type} (ac : ActorCritic S A C) (t : Transition S) :
    ActorCritic S A C × ℕ :=
  let delta := t.reward + ac.gamma * ac.criticEval ac.critic t.to'
    - ac.criticEval ac.critic t.frm
  let errors := (List.replicate (ac.actorNOutputs ac.actor) (0 : ℚ)).set t.action
    (ac.beta * delta)
  let actor1 := ac.actorUpdate ac.actor t.frm errors
  let critic1 := ac.criticUpdate ac.critic t.frm (ac.alpha * delta)
  ({ ac with actor := actor1, critic := critic1 },
    ac.policy (ac.actorEval actor1 t.to'))

/-! ## Driving-loop events

An interleaving of per-sample and per-episode calls, for stating how the
decaying parameters evolve. -/

inductive RLEvent (S : Type) where
  | sample (t : Transition S)
  | terminal (t : Transition S)

/-- Whether an event is an episode-end signal. -/
def RLEvent.isTerminal {S : Type} : RLEvent S → Bool
  | .sample _ => false
  | .terminal _ => true

/-- Feed a list of driving-loop events to a `QLambda` learner in order. -/
def QLambda.run {S : Type} : List (RLEvent S) → QLambdaState S → QLambdaState S
  | [], st => st
  | .sample t :: es, st => QLambda.run es (QLambda.handle_sample st t)
  | .terminal t :: es, st => QLambda.run es (QLambda.handle_terminal st t)

/-- Feed a list of driving-loop events to a `GreedyGQ` learner in order. -/
def GreedyGQ.run {S : Type} : List (RLEvent S) → GreedyGQState S → GreedyGQState S
  | [], st => st
  | .sample t :: es, st => GreedyGQ.run es (GreedyGQ.handle_sample st t)
  | .terminal t :: es, st => GreedyGQ.run es (GreedyGQ.handle_terminal st t)

/-! ## Policy layer

Scores and probabilities are modelled as real numbers since the source uses
the floating-point exponential; the per-policy RNG becomes an explicit
uniform draw `r ∈ [0,1)` passed to the sampler. -/

/-- The most negative finite `f64` value, `-(2^53 - 1) * 2^971`, the initial
accumulator of the source's maximum fold. -/
def f64MIN : ℝ := -(2 ^ 971 * (2 ^ 53 - 1))

/-- Embeds `Boltzmann::probabilities` (`src/policies/boltzmann.rs`): subtract
the running maximum (folded from `f64::MIN`), exponentiate at temperature
`tau`, normalize by the sum. -/
noncomputable def Boltzmann.probabilities (tau : ℝ) (qs : List ℝ) : List ℝ :=
  let mq := qs.foldl max f64MIN
  let ws := qs.map (fun q => Real.exp ((q - mq) / tau))
  ws.map (fun w => w / ws.sum)

/-- Embeds `Boltzmann::sample` (`src/policies/boltzmann.rs`): the first index
whose individual probability exceeds the draw, else the last index. -/
noncomputable def Boltzmann.sample (tau : ℝ) (qs : List ℝ) (r : ℝ) : ℕ :=
  let ps := Boltzmann.probabilities tau qs
  match listPos (fun p => r < p) ps with
  | some index => index
  | none => ps.length - 1

/-- Embeds `sample_probs_with_rng` (`src/policies/mod.rs`): the first index
whose running cumulative probability exceeds the draw, else the last index. -/
def sample_probs_with_rng {α : Type} [LinearOrderedField α] (r : α)
    (probabilities : List α) : ℕ :=
  match listPos (fun p => r < p) (scanSums 0 probabilities) with
  | some index => index
  | none => probabilities.length - 1

/-- Embeds `kappa` (`src/policies/fixed/truncated_boltzmann.rs`): the
logistic squashing `c / (1 + exp(-x))`. -/
noncomputable def kappa (c x : ℝ) : ℝ := c / (1 + Real.exp (-x))

/-- Embeds `TruncatedBoltzmann::probabilities`
(`src/policies/fixed/truncated_boltzmann.rs`) as a function of the
action-value estimates at the queried state: squash each value through
`kappa`, exponentiate, normalize by the sum. -/
noncomputable def TruncatedBoltzmann.probabilities (c : ℝ) (values : List ℝ) : List ℝ :=
  let ws := values.map (fun v => Real.exp (kappa c v))
  ws.map (fun w => w / ws.sum)

/-! ## Supporting lemmas -/

/-- Indexing the vector of all action values agrees with evaluating a single
action (out of range, both give zero). -/
lemma evaluate_phi_getD {S : Type} (fa : MultiLFA S) (phi : List ℚ) (a : ℕ) :
    (fa.evaluate_phi phi).getD a 0 = fa.evaluate_action_phi phi a := by
  show ((fa.weights.map (fun w => dotL w phi)).getD a 0) = dotL (fa.weights.getD a []) phi
  induction fa.weights generalizing a with
  | nil =>
    cases a <;> simp [dotL]
  | cons w ws ih =>
    cases a with
    | zero => rfl
    | succ a => simpa using ih a

/-- Iterating `Parameter.step` leaves the schedule fixed and realizes the
closed-form `atStep` value. -/
lemma param_iterate (p : Parameter) (n : ℕ) :
    (Parameter.step^[n] p).value = p.atStep n ∧ (Parameter.step^[n] p).schedule = p.schedule := by
  induction n with
  | zero => exact ⟨rfl, rfl⟩
  | succ n ih =>
    rw [Function.iterate_succ_apply']
    refine ⟨?_, ?_⟩
    · show (Parameter.step^[n] p).schedule ((Parameter.step^[n] p).value) = p.atStep (n + 1)
      rw [ih.1, ih.2, Parameter.atStep, Parameter.atStep, Function.iterate_succ_apply']
    · exact ih.2

/-- Parameters of a `QLambda` learner after any event interleaving: stepped
once per terminal, untouched by samples. -/
lemma qlambda_run_params {S : Type} (evs : List (RLEvent S)) :
    ∀ st : QLambdaState S,
      (QLambda.run evs st).alpha = Parameter.step^[evs.countP RLEvent.isTerminal] st.alpha ∧
      (QLambda.run evs st).gamma = Parameter.step^[evs.countP RLEvent.isTerminal] st.gamma := by
  induction evs with
  | nil => exact fun st => ⟨rfl, rfl⟩
  | cons e es ih =>
    intro st
    cases e with
    | sample t =>
      simpa [QLambda.run, List.countP_cons, RLEvent.isTerminal]
        using ih (QLambda.handle_sample st t)
    | terminal t =>
      have h := ih (QLambda.handle_terminal st t)
      simp only [QLambda.run, List.countP_cons, RLEvent.isTerminal] at h ⊢
      simpa [QLambda.handle_terminal, Function.iterate_succ_apply] using h

/-- Parameters of a `GreedyGQ` learner after any event interleaving: stepped
once per terminal, untouched by samples. -/
lemma greedy_gq_run_params {S : Type} (evs : List (RLEvent S)) :
    ∀ st : GreedyGQState S,
      (GreedyGQ.run evs st).alpha = Parameter.step^[evs.countP RLEvent.isTerminal] st.alpha ∧
      (GreedyGQ.run evs st).beta = Parameter.step^[evs.countP RLEvent.isTerminal] st.beta ∧
      (GreedyGQ.run evs st).gamma = Parameter.step^[evs.countP RLEvent.isTerminal] st.gamma := by
  induction evs with
  | nil => exact fun st => ⟨rfl, rfl, rfl⟩
  | cons e es ih =>
    intro st
    cases e with
    | sample t =>
      simpa [GreedyGQ.run, List.countP_cons, RLEvent.isTerminal]
        using ih (GreedyGQ.handle_sample st t)
    | terminal t =>
      have h := ih (GreedyGQ.handle_terminal st t)
      simp only [GreedyGQ.run, List.countP_cons, RLEvent.isTerminal] at h ⊢
      simpa [GreedyGQ.handle_terminal, Function.iterate_succ_apply] using h

/-! ## Claim theorems -/

/-- C1: `QLambda::handle_sample` decays the trace at `lambda * gamma` when
the taken action is greedy at `s` and hard-resets it otherwise, then
accumulates the current dense feature vector into the trace, and updates
`theta` at the taken action with the trace at step size `alpha * td_error`
where `td_error = reward + gamma * nqs[greedy_action(ns)] - qs[action]`;
the decaying parameters are untouched. -/
theorem qlambda_handle_sample_spec {S : Type} (st : QLambdaState S) (t : Transition S) :
    let phi_s := st.fa_theta.project t.frm
    let qs := st.fa_theta.evaluate_phi phi_s
    let nqs := st.fa_theta.evaluate_phi (st.fa_theta.project t.to')
    let td_error := t.reward + st.gamma.value * nqs.getD (greedy nqs) 0 - qs.getD t.action 0
    let tr :=
      (if t.action = greedy qs then st.trace.decay (st.trace.lambda * st.gamma.value)
       else st.trace.decay 0).update phi_s
    (QLambda.handle_sample st t).trace = tr ∧
    (QLambda.handle_sample st t).fa_theta
      = st.fa_theta.update_action_phi tr.accumulator t.action (td_error * st.alpha.value) ∧
    (QLambda.handle_sample st t).alpha = st.alpha ∧
    (QLambda.handle_sample st t).gamma = st.gamma := by
  by_cases h : t.action = greedy (st.fa_theta.evaluate_phi (st.fa_theta.project t.frm)) <;>
    simp [QLambda.handle_sample, h, Trace.get]

/-- C3: `GreedyGQ::handle_sample` computes `td_estimate = w(s)`, takes the
behavior-sampled action `na` at `ns`, forms
`td_error = reward + gamma * theta(ns, na) - theta(s, action)`, and applies
exactly the two updates `update_q = td_error * phi_s - gamma * td_estimate *
phi_ns` (to `theta` at the taken action, step size `alpha`) and
`update_v = (td_error - td_estimate) * phi_s` (to `w`, step size
`alpha * beta`); policy and decaying parameters are untouched. -/
theorem greedy_gq_handle_sample_spec {S : Type} (st : GreedyGQState S) (t : Transition S) :
    let phi_s := st.fa_w.project t.frm
    let phi_ns := st.fa_w.project t.to'
    let na := st.policy t.to'
    let td_estimate := st.fa_w.evaluate_phi phi_s
    let td_error := t.reward + st.gamma.value * st.fa_theta.evaluate_action_phi phi_ns na
      - st.fa_theta.evaluate_action_phi phi_s t.action
    (GreedyGQ.handle_sample st t).fa_theta
      = st.fa_theta.update_action_phi
          (subL (smulL td_error phi_s) (smulL (st.gamma.value * td_estimate) phi_ns))
          t.action st.alpha.value ∧
    (GreedyGQ.handle_sample st t).fa_w
      = st.fa_w.update_phi (smulL (td_error - td_estimate) phi_s)
          (st.alpha.value * st.beta.value) ∧
    (GreedyGQ.handle_sample st t).policy = st.policy ∧
    (GreedyGQ.handle_sample st t).alpha = st.alpha ∧
    (GreedyGQ.handle_sample st t).beta = st.beta ∧
    (GreedyGQ.handle_sample st t).gamma = st.gamma :=
  ⟨rfl, rfl, rfl, rfl, rfl, rfl⟩

/-- C5: `LSTDLambda::solve` overwrites the estimator weights with the direct
solution of `A·theta = b` when the direct solve succeeds, otherwise with
`pinv(A)·b` when the pseudo-inverse succeeds, and when both fail it returns
the state completely unchanged. -/
theorem lstd_solve_spec {S : Type} (direct : List (List ℚ) → List ℚ → Option (List ℚ))
    (pinv : List (List ℚ) → Option (List (List ℚ))) (st : LSTDState S) :
    (∀ theta, direct st.a st.b = some theta →
      LSTDLambda.solve direct pinv st
        = { st with fa_theta := { st.fa_theta with weights := theta } }) ∧
    (∀ ainv, direct st.a st.b = none → pinv st.a = some ainv →
      LSTDLambda.solve direct pinv st
        = { st with fa_theta := { st.fa_theta with weights := matVec ainv st.b } }) ∧
    (direct st.a st.b = none → pinv st.a = none →
      LSTDLambda.solve direct pinv st = st) := by
  refine ⟨fun theta h => ?_, fun ainv h1 h2 => ?_, fun h1 h2 => ?_⟩
  · simp [LSTDLambda.solve, h]
  · simp [LSTDLambda.solve, h1, h2]
  · simp [LSTDLambda.solve, h1, h2]

/-- Entries of a zero vector with one coordinate overwritten. -/
lemma getD_replicate_set (n a i : ℕ) (v : ℚ) (hi : i < n) :
    ((List.replicate n (0 : ℚ)).set a v).getD i 0 = if i = a then v else 0 := by
  have hlen : ((List.replicate n (0 : ℚ)).set a v).length = n := by simp
  rw [List.getD_eq_getElem?_getD, List.getElem?_set]
  by_cases h : i = a
  · subst h
    simp [hi]
  · have ha : a ≠ i := fun hh => h hh.symm
    simp [ha, h, List.getElem?_replicate, hi]

/-- A fallible solver that always fails, for exercising the double-failure
branch of `LSTDLambda::solve`. -/
def lstdNoneDirect : List (List ℚ) → List ℚ → Option (List ℚ) := fun _ _ => none

/-- A fallible pseudo-inverse that always fails. -/
def lstdNonePinv : List (List ℚ) → Option (List (List ℚ)) := fun _ => none

/-- A concrete one-feature `LSTDLambda` state. -/
def lstdState0 : LSTDState ℚ :=
  { fa_theta := { project := fun _ => [1], weights := [0] }
    gamma := ⟨1, fun x => x⟩
    trace := ⟨1/2, [0]⟩
    a := [[0]]
    b := [0] }

/-- C5 witness: with both solvers failing on a concrete state, `solve` is a
silent no-op. -/
theorem lstd_solve_spec_witness :
    lstdNoneDirect lstdState0.a lstdState0.b = none ∧
    lstdNonePinv lstdState0.a = none ∧
    LSTDLambda.solve lstdNoneDirect lstdNonePinv lstdState0 = lstdState0 :=
  ⟨rfl, rfl, (lstd_solve_spec lstdNoneDirect lstdNonePinv lstdState0).2.2 rfl rfl⟩

/-- `LSTDLambda::solve` touches only the estimator weights: the accumulators
`A` and `b`, the trace, `gamma` and the projector survive unchanged. -/
lemma lstd_solve_fields {S : Type} (direct : List (List ℚ) → List ℚ → Option (List ℚ))
    (pinv : List (List ℚ) → Option (List (List ℚ))) (st : LSTDState S) :
    LSTDLambda.solve direct pinv st
      = { st with fa_theta := { st.fa_theta with
            weights := (LSTDLambda.solve direct pinv st).fa_theta.weights } } := by
  rcases h1 : direct st.a st.b with _ | theta
  · rcases h2 : pinv st.a with _ | ainv <;> simp [LSTDLambda.solve, h1, h2]
  · simp [LSTDLambda.solve, h1]

/-- The per-transition LSTD update never reads the estimator weights, so they
pass through a batch fold untouched and uninfluential. -/
lemma lstd_foldl_weights {S : Type} (ts : List (Transition S)) :
    ∀ (st : LSTDState S) (w : List ℚ),
      ts.foldl LSTDLambda.step { st with fa_theta := { st.fa_theta with weights := w } }
        = { ts.foldl LSTDLambda.step st with
            fa_theta := { (ts.foldl LSTDLambda.step st).fa_theta with weights := w } } := by
  induction ts with
  | nil => intro st w; rfl
  | cons t ts ih =>
    intro st w
    rw [List.foldl_cons, List.foldl_cons]
    have hstep : LSTDLambda.step { st with fa_theta := { st.fa_theta with weights := w } } t
        = { LSTDLambda.step st t with
            fa_theta := { (LSTDLambda.step st t).fa_theta with weights := w } } := rfl
    rw [hstep]
    exact ih (LSTDLambda.step st t) w

/-- C6: `ActorCritic::handle` computes `delta = reward + gamma * critic(ns) -
critic(s)`, builds an error vector that is zero except at the taken action's
index where it equals `beta * delta`, unconditionally updates the actor with
it and the critic with `alpha * delta`, and returns the policy's sample of
the actor's action-value vector evaluated at `ns`. -/
theorem actor_critic_handle_spec {S A C : Type} (ac : ActorCritic S A C) (t : Transition S)
    (h : t.action < ac.actorNOutputs ac.actor) :
    let delta := t.reward + ac.gamma * ac.criticEval ac.critic t.to'
      - ac.criticEval ac.critic t.frm
    let errors := (List.replicate (ac.actorNOutputs ac.actor) (0 : ℚ)).set t.action
      (ac.beta * delta)
    (∀ i, i < ac.actorNOutputs ac.actor →
      errors.getD i 0 = if i = t.action then ac.beta * delta else 0) ∧
    errors.getD t.action 0 = ac.beta * delta ∧
    (ActorCritic.handle ac t).1.actor = ac.actorUpdate ac.actor t.frm errors ∧
    (ActorCritic.handle ac t).1.critic = ac.criticUpdate ac.critic t.frm (ac.alpha * delta) ∧
    (ActorCritic.handle ac t).2
      = ac.policy (ac.actorEval (ac.actorUpdate ac.actor t.frm errors) t.to') := by
  refine ⟨fun i hi => getD_replicate_set _ _ _ _ hi, ?_, rfl, rfl, rfl⟩
  rw [getD_replicate_set _ _ _ _ h]
  simp

/-- A concrete two-action actor-critic agent over rational states, with a
list-valued actor and a scalar critic. -/
def acAgent0 : ActorCritic ℚ (List ℚ) ℚ :=
  { actor := [0, 0]
    critic := 0
    actorEval := fun a _ => a
    actorUpdate := fun a _ e => addL a e
    actorNOutputs := List.length
    criticEval := fun c _ => c
    criticUpdate := fun c _ e => c + e
    policy := greedy
    alpha := 1
    beta := 1
    gamma := 1 }

/-- A concrete transition taking action 0 with reward 1. -/
def acTransition0 : Transition ℚ := ⟨0, 1, 0, 1, false⟩

/-- C6 witness: the actor-critic update characterization at a concrete agent
and transition. -/
theorem actor_critic_handle_spec_witness :
    acTransition0.action < acAgent0.actorNOutputs acAgent0.actor ∧
    (let delta := acTransition0.reward
        + acAgent0.gamma * acAgent0.criticEval acAgent0.critic acTransition0.to'
        - acAgent0.criticEval acAgent0.critic acTransition0.frm
     let errors := (List.replicate (acAgent0.actorNOutputs acAgent0.actor) (0 : ℚ)).set
        acTransition0.action (acAgent0.beta * delta)
     (∀ i, i < acAgent0.actorNOutputs acAgent0.actor →
       errors.getD i 0 = if i = acTransition0.action then acAgent0.beta * delta else 0) ∧
     errors.getD acTransition0.action 0 = acAgent0.beta * delta ∧
     (ActorCritic.handle acAgent0 acTransition0).1.actor
       = acAgent0.actorUpdate acAgent0.actor acTransition0.frm errors ∧
     (ActorCritic.handle acAgent0 acTransition0).1.critic
       = acAgent0.criticUpdate acAgent0.critic acTransition0.frm (acAgent0.alpha * delta) ∧
     (ActorCritic.handle acAgent0 acTransition0).2
       = acAgent0.policy (acAgent0.actorEval
           (acAgent0.actorUpdate acAgent0.actor acTransition0.frm errors) acTransition0.to')) :=
  ⟨by decide, actor_critic_handle_spec acAgent0 acTransition0 (by decide)⟩

/-- Entries of the running-sum list are the prefix sums of the input. -/
lemma scanSums_getD (acc : ℚ) (l : List ℚ) (i : ℕ) (h : i < l.length) :
    (scanSums acc l).getD i 0 = acc + (l.take (i + 1)).sum := by
  induction l generalizing acc i with
  | nil => cases h
  | cons p ps ih =>
    cases i with
    | zero => simp [scanSums]
    | succ i =>
      have hi : i < ps.length := by simpa using h
      simp only [scanSums, List.getD_cons_succ, List.take_succ_cons, List.sum_cons]
      rw [ih (acc + p) i hi, add_assoc]

/-- The running-sum list has the length of its input. -/
lemma scanSums_length (acc : ℚ) (l : List ℚ) : (scanSums acc l).length = l.length := by
  induction l generalizing acc with
  | nil => rfl
  | cons p ps ih => simpa [scanSums] using ih (acc + p)

/-- Characterization of `listPos`: a returned index is in range, satisfies
the predicate, and is the least such; a `none` result means no entry
satisfies it. -/
lemma listPos_spec (f : ℚ → Prop) [DecidablePred f] (l : List ℚ) :
    (∀ i, listPos f l = some i →
      i < l.length ∧ f (l.getD i 0) ∧ ∀ j, j < i → ¬ f (l.getD j 0)) ∧
    (listPos f l = none → ∀ j, j < l.length → ¬ f (l.getD j 0)) := by
  induction l with
  | nil =>
    refine ⟨fun i h => ?_, fun _ j hj => ?_⟩
    · cases h
    · exact absurd hj (by simp)
  | cons a l ih =>
    by_cases ha : f a
    · refine ⟨fun i h => ?_, fun h => ?_⟩
      · simp only [listPos, if_pos ha] at h
        cases h
        exact ⟨Nat.succ_pos _, ha, fun j hj => absurd hj (Nat.not_lt_zero j)⟩
      · simp only [listPos, if_pos ha] at h
        cases h
    · refine ⟨fun i h => ?_, fun h j hj => ?_⟩
      · simp only [listPos, if_neg ha] at h
        rcases Option.map_eq_some'.mp h with ⟨i0, hi0, rfl⟩
        rcases (ih.1 i0 hi0) with ⟨hlt, hf, hmin⟩
        refine ⟨by simpa using Nat.succ_lt_succ hlt, by simpa using hf, fun j hj => ?_⟩
        cases j with
        | zero => simpa using ha
        | succ j => simpa using hmin j (Nat.lt_of_succ_lt_succ hj)
      · simp only [listPos, if_neg ha, Option.map_eq_none'] at h
        cases j with
        | zero => simpa using ha
        | succ j =>
          have hj' : j < l.length := by simpa using Nat.lt_of_succ_lt_succ hj
          simpa using ih.2 h j hj'

/-- C10: on any non-empty probability slice and draw `r ∈ [0,1)`,
`sample_probs_with_rng` returns an index strictly below the slice length: the
first index whose running cumulative sum exceeds `r` when one exists, and the
last index (`length - 1`) otherwise. -/
theorem sample_probs_safe (ps : List ℚ) (r : ℚ) (h0 : ps ≠ []) (h1 : 0 ≤ r) (h2 : r < 1) :
    sample_probs_with_rng r ps < ps.length ∧
    ((∃ i, i < ps.length ∧ r < (ps.take (i + 1)).sum) →
      (r < (ps.take (sample_probs_with_rng r ps + 1)).sum ∧
       ∀ j, j < sample_probs_with_rng r ps → ¬ r < (ps.take (j + 1)).sum)) ∧
    ((∀ i, i < ps.length → ¬ r < (ps.take (i + 1)).sum) →
      sample_probs_with_rng r ps = ps.length - 1) := by
  have hlen := scanSums_length (0 : ℚ) ps
  rcases h : listPos (fun p => r < p) (scanSums 0 ps) with _ | i
  · have hnone := (listPos_spec (fun p => r < p) (scanSums 0 ps)).2 h
    have hval : sample_probs_with_rng r ps = ps.length - 1 := by
      simp [sample_probs_with_rng, h]
    refine ⟨?_, fun hex => ?_, fun _ => hval⟩
    · rw [hval]
      exact Nat.sub_lt (List.length_pos.mpr h0) Nat.one_pos
    · rcases hex with ⟨i, hi, hlt⟩
      exfalso
      refine hnone i (by rw [hlen]; exact hi) ?_
      rw [scanSums_getD 0 ps i hi, zero_add]
      exact hlt
  · rcases (listPos_spec (fun p => r < p) (scanSums 0 ps)).1 i h with ⟨hlt, hf, hmin⟩
    rw [hlen] at hlt
    have hval : sample_probs_with_rng r ps = i := by
      simp [sample_probs_with_rng, h]
    rw [scanSums_getD 0 ps i hlt, zero_add] at hf
    refine ⟨hval ▸ hlt, fun _ => ⟨hval ▸ hf, fun j hj => ?_⟩, fun hall => ?_⟩
    · rw [hval] at hj
      have hj' : j < ps.length := hj.trans hlt
      have := hmin j hj
      rw [scanSums_getD 0 ps j hj', zero_add] at this
      exact this
    · exact absurd hf (hall i hlt)

/-- C10 witness: the sampler at a concrete two-entry distribution and
draw 0. -/
theorem sample_probs_safe_witness :
    (([1/2, 1/2] : List ℚ) ≠ []) ∧ ((0 : ℚ) ≤ 0) ∧ ((0 : ℚ) < 1) ∧
    (sample_probs_with_rng (0 : ℚ) [1/2, 1/2] < ([1/2, 1/2] : List ℚ).length ∧
     ((∃ i, i < ([1/2, 1/2] : List ℚ).length ∧
        (0 : ℚ) < (([1/2, 1/2] : List ℚ).take (i + 1)).sum) →
       ((0 : ℚ) < (([1/2, 1/2] : List ℚ).take
          (sample_probs_with_rng (0 : ℚ) [1/2, 1/2] + 1)).sum ∧
        ∀ j, j < sample_probs_with_rng (0 : ℚ) [1/2, 1/2] →
          ¬ (0 : ℚ) < (([1/2, 1/2] : List ℚ).take (j + 1)).sum)) ∧
     ((∀ i, i < ([1/2, 1/2] : List ℚ).length →
        ¬ (0 : ℚ) < (([1/2, 1/2] : List ℚ).take (i + 1)).sum) →
       sample_probs_with_rng (0 : ℚ) [1/2, 1/2] = ([1/2, 1/2] : List ℚ).length - 1)) :=
  ⟨by decide, le_refl 0, by norm_num,
    sample_probs_safe [1/2, 1/2] 0 (by decide) (le_refl 0) (by norm_num)⟩

/-- Dividing every list entry by a scalar divides the sum. -/
lemma list_map_div_sum (l : List ℝ) (z : ℝ) : (l.map (fun w => w / z)).sum = l.sum / z := by
  induction l with
  | nil => simp
  | cons a l ih => simp [ih, add_div]

/-- Multiplying every list entry by a scalar multiplies the sum. -/
lemma list_map_mul_sum (l : List ℝ) (k : ℝ) : (l.map (fun w => w * k)).sum = l.sum * k := by
  induction l with
  | nil => simp
  | cons a l ih => simp [ih, add_mul]

/-- The normalized exponentiated scores do not depend on which constant was
subtracted before exponentiation: the subtracted maximum cancels. -/
lemma boltzmann_mq_indep (tau : ℝ) (qs : List ℝ) (m1 m2 : ℝ) :
    (qs.map (fun q => Real.exp ((q - m1) / tau))).map
        (fun w => w / (qs.map (fun q => Real.exp ((q - m1) / tau))).sum)
      = (qs.map (fun q => Real.exp ((q - m2) / tau))).map
        (fun w => w / (qs.map (fun q => Real.exp ((q - m2) / tau))).sum) := by
  have hk0 : Real.exp ((m2 - m1) / tau) ≠ 0 := Real.exp_ne_zero _
  have hexp : (fun q => Real.exp ((q - m1) / tau))
      = fun q => Real.exp ((q - m2) / tau) * Real.exp ((m2 - m1) / tau) := by
    funext q
    rw [← Real.exp_add, div_add_div_same]
    congr 1
    ring
  have hcomp : List.map (fun q => Real.exp ((q - m2) / tau) * Real.exp ((m2 - m1) / tau)) qs
      = (List.map (fun q => Real.exp ((q - m2) / tau)) qs).map
          (fun w => w * Real.exp ((m2 - m1) / tau)) := by
    rw [List.map_map]
    rfl
  rw [hexp]
  simp only [hcomp, list_map_mul_sum]
  rw [List.map_map]
  congr 1
  funext w
  rw [Function.comp_apply, mul_comm w, mul_comm (qs.map (fun q => Real.exp ((q - m2) / tau))).sum,
    mul_div_mul_left _ _ hk0]

/-- `Boltzmann::probabilities` written with an arbitrary subtracted constant
in place of the folded maximum. -/
lemma boltzmann_probabilities_eq (tau : ℝ) (qs : List ℝ) (m : ℝ) :
    Boltzmann.probabilities tau qs
      = (qs.map (fun q => Real.exp ((q - m) / tau))).map
          (fun w => w / (qs.map (fun q => Real.exp ((q - m) / tau))).sum) :=
  boltzmann_mq_indep tau qs (qs.foldl max f64MIN) m

/-- C7: for every temperature `tau > 0` and non-empty score list, the
Boltzmann probability vector sums to exactly 1, and adding the same constant
to every score leaves it unchanged (softmax shift-invariance over exact real
arithmetic). -/
theorem boltzmann_probabilities_spec (tau c : ℝ) (qs : List ℝ) (htau : 0 < tau)
    (hqs : qs ≠ []) :
    (Boltzmann.probabilities tau qs).sum = 1 ∧
    Boltzmann.probabilities tau (qs.map (fun q => q + c)) = Boltzmann.probabilities tau qs := by
  constructor
  · rw [boltzmann_probabilities_eq tau qs (qs.foldl max f64MIN), list_map_div_sum]
    refine div_self (ne_of_gt (List.sum_pos _ (fun x hx => ?_) ?_))
    · rcases List.mem_map.mp hx with ⟨q, _, rfl⟩
      exact Real.exp_pos _
    · simpa using hqs
  · have hlist : (qs.map (fun q => q + c)).map
        (fun q => Real.exp ((q - (qs.foldl max f64MIN + c)) / tau))
        = qs.map (fun q => Real.exp ((q - qs.foldl max f64MIN) / tau)) := by
      rw [List.map_map]
      congr 1
      funext q
      rw [Function.comp_apply]
      congr 1
      ring
    rw [boltzmann_probabilities_eq tau (qs.map (fun q => q + c)) (qs.foldl max f64MIN + c),
      boltzmann_probabilities_eq tau qs (qs.foldl max f64MIN)]
    simp only [hlist]

/-- C7 witness: the Boltzmann properties at temperature 1, score list `[0]`
and shift 0. -/
theorem boltzmann_probabilities_spec_witness :
    (0 : ℝ) < 1 ∧ ([(0 : ℝ)] ≠ []) ∧
    ((Boltzmann.probabilities 1 [(0 : ℝ)]).sum = 1 ∧
     Boltzmann.probabilities 1 (([(0 : ℝ)]).map (fun q => q + 0))
       = Boltzmann.probabilities 1 [(0 : ℝ)]) :=
  ⟨by norm_num, by simp, boltzmann_probabilities_spec 1 0 [(0 : ℝ)] (by norm_num) (by simp)⟩

/-- Closed form of `TruncatedBoltzmann::probabilities` on a vector of action
values given as a function on `Fin n`: each value is squashed through
`kappa`, exponentiated, and normalized by the total. -/
lemma truncated_probabilities_ofFn (c : ℝ) (n : ℕ) (v : Fin n → ℝ) :
    TruncatedBoltzmann.probabilities c (List.ofFn v)
      = List.ofFn (fun i => Real.exp (kappa c (v i)) / ∑ j, Real.exp (kappa c (v j))) := by
  show ((List.ofFn v).map (fun x => Real.exp (kappa c x))).map
      (fun w => w / ((List.ofFn v).map (fun x => Real.exp (kappa c x))).sum) = _
  simp only [List.map_ofFn, List.sum_ofFn]
  rfl

/-- Entry extraction from an `ofFn` list via `getD` at an in-range index. -/
lemma getD_ofFn (n : ℕ) (f : Fin n → ℝ) (i : Fin n) :
    (List.ofFn f).getD (i : ℕ) 0 = f i := by
  rw [List.getD_eq_getElem?_getD, List.getElem?_ofFn]
  simp [List.ofFnNthVal, i.isLt]

/-- C8 (amended): for every bound `c` and non-empty action-value vector, the
truncated-Boltzmann probabilities follow the kappa-then-exp-then-normalize
form, are each strictly positive and at most 1, sum to exactly 1, are each
strictly below 1 as soon as there are at least two actions, and are
equivariant under any permutation of the action values composed with the
matching action-index permutation. -/
theorem truncated_boltzmann_spec (c : ℝ) (n : ℕ) (v : Fin n → ℝ) (e : Equiv.Perm (Fin n))
    (hn : 0 < n) :
    TruncatedBoltzmann.probabilities c (List.ofFn v)
      = List.ofFn (fun i => Real.exp (kappa c (v i)) / ∑ j, Real.exp (kappa c (v j))) ∧
    (TruncatedBoltzmann.probabilities c (List.ofFn v)).sum = 1 ∧
    (∀ p ∈ TruncatedBoltzmann.probabilities c (List.ofFn v), 0 < p ∧ p ≤ 1) ∧
    (2 ≤ n → ∀ p ∈ TruncatedBoltzmann.probabilities c (List.ofFn v), p < 1) ∧
    TruncatedBoltzmann.probabilities c (List.ofFn (v ∘ e))
      = List.ofFn (fun i =>
          (TruncatedBoltzmann.probabilities c (List.ofFn v)).getD (e i : ℕ) 0) := by
  have hne : (Finset.univ : Finset (Fin n)).Nonempty := by
    have : Nonempty (Fin n) := Fin.pos_iff_nonempty.mp hn
    exact Finset.univ_nonempty
  have hWpos : 0 < ∑ j, Real.exp (kappa c (v j)) :=
    Finset.sum_pos (fun j _ => Real.exp_pos _) hne
  have hW0 : (∑ j, Real.exp (kappa c (v j))) ≠ 0 := ne_of_gt hWpos
  refine ⟨truncated_probabilities_ofFn c n v, ?_, ?_, ?_, ?_⟩
  · rw [truncated_probabilities_ofFn, List.sum_ofFn, ← Finset.sum_div, div_self hW0]
  · intro p hp
    rw [truncated_probabilities_ofFn] at hp
    rcases Set.mem_range.mp ((List.mem_ofFn _ _).mp hp) with ⟨i, rfl⟩
    refine ⟨div_pos (Real.exp_pos _) hWpos, (div_le_one hWpos).mpr ?_⟩
    exact Finset.single_le_sum (fun j _ => (Real.exp_pos (kappa c (v j))).le)
      (Finset.mem_univ i)
  · intro h2 p hp
    rw [truncated_probabilities_ofFn] at hp
    rcases Set.mem_range.mp ((List.mem_ofFn _ _).mp hp) with ⟨i, rfl⟩
    refine (div_lt_one hWpos).mpr ?_
    rcases Fintype.exists_ne_of_one_lt_card (by simpa using h2) i with ⟨j, hj⟩
    exact Finset.single_lt_sum hj (Finset.mem_univ i) (Finset.mem_univ j)
      (Real.exp_pos _) (fun k _ _ => (Real.exp_pos (kappa c (v k))).le)
  · rw [truncated_probabilities_ofFn c n (v ∘ e)]
    have hsum : (∑ j, Real.exp (kappa c (v (e j)))) = ∑ j, Real.exp (kappa c (v j)) :=
      Equiv.sum_comp e (fun j => Real.exp (kappa c (v j)))
    refine congrArg List.ofFn (funext fun i => ?_)
    rw [truncated_probabilities_ofFn, getD_ofFn n _ (e i)]
    simp only [Function.comp_apply]
    rw [hsum]

/-- Boltzmann probabilities at temperature 1 on the concrete score list
`[log(1/2), log(1/2), 0]` are `[1/4, 1/4, 1/2]`. -/
lemma boltzmann_probabilities_concrete :
    Boltzmann.probabilities 1 [Real.log (1 / 2), Real.log (1 / 2), 0] = [1 / 4, 1 / 4, 1 / 2] := by
  rw [boltzmann_probabilities_eq 1 [Real.log (1 / 2), Real.log (1 / 2), 0] 0]
  have hws : ([Real.log (1 / 2), Real.log (1 / 2), 0]).map (fun q => Real.exp ((q - 0) / 1))
      = [1 / 2, 1 / 2, 1] := by
    have h2 : Real.exp (-Real.log 2) = 2⁻¹ := by
      rw [Real.exp_neg, Real.exp_log (by norm_num : (0 : ℝ) < 2)]
    simp [h2, Real.exp_log (by norm_num : (0 : ℝ) < 1 / 2)]
  rw [hws]
  norm_num

/-- C2: `Boltzmann::sample` compares the draw against each individual
probability, not against the running cumulative sum: on the probability
vector `[1/4, 1/4, 1/2]` (softmax of `[log(1/2), log(1/2), 0]` at
temperature 1) with draw `r = 3/10`, the first index whose cumulative
probability exceeds `r` is 1 — as the cumulative-scan sampler of
`policies::mod` confirms — yet `sample` returns 2. -/
theorem boltzmann_sample_bug :
    Boltzmann.sample 1 [Real.log (1 / 2), Real.log (1 / 2), 0] (3 / 10) = 2 ∧
    (3 : ℝ) / 10
      < (((Boltzmann.probabilities 1 [Real.log (1 / 2), Real.log (1 / 2), 0]).take 2).sum) ∧
    ¬ ((3 : ℝ) / 10
      < (((Boltzmann.probabilities 1 [Real.log (1 / 2), Real.log (1 / 2), 0]).take 1).sum)) ∧
    sample_probs_with_rng ((3 : ℝ) / 10)
      (Boltzmann.probabilities 1 [Real.log (1 / 2), Real.log (1 / 2), 0]) = 1 := by
  have hps := boltzmann_probabilities_concrete
  refine ⟨?_, ?_, ?_, ?_⟩
  · show (match listPos (fun p => (3 : ℝ) / 10 < p)
        (Boltzmann.probabilities 1 [Real.log (1 / 2), Real.log (1 / 2), 0]) with
      | some index => index
      | none => (Boltzmann.probabilities 1 [Real.log (1 / 2), Real.log (1 / 2), 0]).length - 1)
      = 2
    rw [hps]
    norm_num [listPos]
  · rw [hps]
    norm_num
  · rw [hps]
    norm_num
  · rw [hps]
    norm_num [sample_probs_with_rng, scanSums, listPos]

/-- C8 counterexample: with a single action, the returned probability is
exactly 1, so the entries are not all strictly within `(0, 1)` as the
original claim requires. -/
theorem truncated_boltzmann_singleton :
    TruncatedBoltzmann.probabilities 1 [(0 : ℝ)] = [1] ∧
    ¬ (∀ p ∈ TruncatedBoltzmann.probabilities 1 [(0 : ℝ)], 0 < p ∧ p < 1) := by
  have h : TruncatedBoltzmann.probabilities 1 [(0 : ℝ)] = [1] := by
    show [Real.exp (kappa 1 0)].map
        (fun w => w / ([Real.exp (kappa 1 0)]).sum) = [1]
    simp [div_self (Real.exp_ne_zero (kappa 1 0))]
  refine ⟨h, fun hall => ?_⟩
  have h1 : (1 : ℝ) ∈ TruncatedBoltzmann.probabilities 1 [(0 : ℝ)] := by
    rw [h]
    simp
  exact absurd (hall 1 h1).2 (lt_irrefl 1)

/-- C8 witness: the amended truncated-Boltzmann properties at `c = 1` and a
concrete two-action value vector. -/
theorem truncated_boltzmann_spec_witness :
    0 < 2 ∧
    (TruncatedBoltzmann.probabilities 1 (List.ofFn (fun _ : Fin 2 => (0 : ℝ)))
       = List.ofFn (fun _ : Fin 2 =>
           Real.exp (kappa 1 0) / ∑ _j : Fin 2, Real.exp (kappa 1 0)) ∧
     (TruncatedBoltzmann.probabilities 1 (List.ofFn (fun _ : Fin 2 => (0 : ℝ)))).sum = 1 ∧
     (∀ p ∈ TruncatedBoltzmann.probabilities 1 (List.ofFn (fun _ : Fin 2 => (0 : ℝ))),
        0 < p ∧ p ≤ 1) ∧
     (2 ≤ 2 → ∀ p ∈ TruncatedBoltzmann.probabilities 1 (List.ofFn (fun _ : Fin 2 => (0 : ℝ))),
        p < 1) ∧
     TruncatedBoltzmann.probabilities 1
         (List.ofFn ((fun _ : Fin 2 => (0 : ℝ)) ∘ Equiv.refl (Fin 2)))
       = List.ofFn (fun i : Fin 2 =>
           (TruncatedBoltzmann.probabilities 1
             (List.ofFn (fun _ : Fin 2 => (0 : ℝ)))).getD ((Equiv.refl (Fin 2)) i : ℕ) 0)) :=
  ⟨by norm_num,
    truncated_boltzmann_spec 1 2 (fun _ => 0) (Equiv.refl (Fin 2)) (by norm_num)⟩

/-- C4: per transition, in submission order, `LSTDLambda::handle_batch`
decays the trace at `lambda * gamma`, accumulates the dense feature vector,
adds `reward * trace` into `b`, hard-resets the trace and uses `phi_s` alone
as the bootstrap target row on terminal transitions (`phi_s - gamma * phi_ns`
otherwise), and adds the outer product of the trace with that row into `A`;
`A` and `b` accumulate across `handle_batch` calls and are never reset. -/
theorem lstd_handle_batch_spec {S : Type}
    (direct : List (List ℚ) → List ℚ → Option (List ℚ))
    (pinv : List (List ℚ) → Option (List (List ℚ))) (st : LSTDState S) (t : Transition S)
    (ts ts1 ts2 : List (Transition S)) :
    (let phi_s := st.fa_theta.project t.frm
     let z := ((st.trace.decay (st.trace.lambda * st.gamma.value)).update phi_s).accumulator
     let pd := if t.terminated then phi_s
       else subL phi_s (smulL st.gamma.value (st.fa_theta.project t.to'))
     (LSTDLambda.step st t).trace
       = (if t.terminated
          then ((st.trace.decay (st.trace.lambda * st.gamma.value)).update phi_s).decay 0
          else (st.trace.decay (st.trace.lambda * st.gamma.value)).update phi_s) ∧
     (LSTDLambda.step st t).b = addL st.b (smulL t.reward z) ∧
     (LSTDLambda.step st t).a = matAdd st.a (outer z pd) ∧
     (LSTDLambda.step st t).fa_theta = st.fa_theta ∧
     (LSTDLambda.step st t).gamma = st.gamma) ∧
    LSTDLambda.handle_batch direct pinv st ts
      = LSTDLambda.solve direct pinv (ts.foldl LSTDLambda.step st) ∧
    (LSTDLambda.handle_batch direct pinv st ts).a = (ts.foldl LSTDLambda.step st).a ∧
    (LSTDLambda.handle_batch direct pinv st ts).b = (ts.foldl LSTDLambda.step st).b ∧
    (LSTDLambda.handle_batch direct pinv
        (LSTDLambda.handle_batch direct pinv st ts1) ts2).a
      = ((ts1 ++ ts2).foldl LSTDLambda.step st).a ∧
    (LSTDLambda.handle_batch direct pinv
        (LSTDLambda.handle_batch direct pinv st ts1) ts2).b
      = ((ts1 ++ ts2).foldl LSTDLambda.step st).b := by
  refine ⟨⟨rfl, rfl, rfl, rfl, rfl⟩, rfl, ?_, ?_, ?_, ?_⟩
  · rw [LSTDLambda.handle_batch, lstd_solve_fields]
  · rw [LSTDLambda.handle_batch, lstd_solve_fields]
  · rw [LSTDLambda.handle_batch, LSTDLambda.handle_batch,
      lstd_solve_fields direct pinv (ts1.foldl LSTDLambda.step st), lstd_foldl_weights,
      lstd_solve_fields, List.foldl_append]
  · rw [LSTDLambda.handle_batch, LSTDLambda.handle_batch,
      lstd_solve_fields direct pinv (ts1.foldl LSTDLambda.step st), lstd_foldl_weights,
      lstd_solve_fields, List.foldl_append]

/-- C9: decaying parameters are stepped only by `handle_terminal` and never
by `handle_sample`; after any event interleaving with `N` terminal events,
each of `alpha`, `beta`, `gamma` equals its schedule's closed-form value at
step `N` for both `GreedyGQ` and `QLambda`. -/
theorem parameter_stepping_spec {S : Type} (evs : List (RLEvent S)) (stq : QLambdaState S)
    (stg : GreedyGQState S) (t : Transition S) :
    ((QLambda.handle_sample stq t).alpha = stq.alpha ∧
     (QLambda.handle_sample stq t).gamma = stq.gamma) ∧
    ((QLambda.handle_terminal stq t).alpha = stq.alpha.step ∧
     (QLambda.handle_terminal stq t).gamma = stq.gamma.step) ∧
    ((GreedyGQ.handle_sample stg t).alpha = stg.alpha ∧
     (GreedyGQ.handle_sample stg t).beta = stg.beta ∧
     (GreedyGQ.handle_sample stg t).gamma = stg.gamma) ∧
    ((GreedyGQ.handle_terminal stg t).alpha = stg.alpha.step ∧
     (GreedyGQ.handle_terminal stg t).beta = stg.beta.step ∧
     (GreedyGQ.handle_terminal stg t).gamma = stg.gamma.step) ∧
    ((QLambda.run evs stq).alpha.value = stq.alpha.atStep (evs.countP RLEvent.isTerminal) ∧
     (QLambda.run evs stq).gamma.value = stq.gamma.atStep (evs.countP RLEvent.isTerminal)) ∧
    ((GreedyGQ.run evs stg).alpha.value = stg.alpha.atStep (evs.countP RLEvent.isTerminal) ∧
     (GreedyGQ.run evs stg).beta.value = stg.beta.atStep (evs.countP RLEvent.isTerminal) ∧
     (GreedyGQ.run evs stg).gamma.value = stg.gamma.atStep (evs.countP RLEvent.isTerminal)) := by
  refine ⟨⟨rfl, rfl⟩, ⟨rfl, rfl⟩, ⟨rfl, rfl, rfl⟩, ⟨rfl, rfl, rfl⟩, ⟨?_, ?_⟩, ⟨?_, ?_, ?_⟩⟩
  · rw [(qlambda_run_params evs stq).1, (param_iterate _ _).1]
  · rw [(qlambda_run_params evs stq).2, (param_iterate _ _).1]
  · rw [(greedy_gq_run_params evs stg).1, (param_iterate _ _).1]
  · rw [(greedy_gq_run_params evs stg).2.1, (param_iterate _ _).1]
  · rw [(greedy_gq_run_params evs stg).2.2, (param_iterate _ _).1]

end RL
